import Mathlib

set_option maxHeartbeats 1000000

/- Shallow embedding of the copy-on-write trie and the versioned store
   (sjtu::Trie, sjtu::TrieStore) from src/trie/src.hpp.

   Machine integers: `size_t` arithmetic is modelled on Nat with explicit
   wrap-around where the source can wrap (`snapshots_.size() - 1` and the
   `size_t(-1)` sentinel of TrieStore::Get).

   Fallible code: C++ executions that run into undefined behaviour (a null
   pointer dereference, an out-of-bounds string_view index, `.back()` on an
   empty vector) are modelled with `Option`, `none` marking the UB. -/

/-- Runtime type tags for the type-erased values held by the trie: the
dynamic type `T` of a `TrieNodeWithValue<T>`, which `Get<T>`'s
`dynamic_cast` checks at read time. Two distinct tags are enough to express
type-mismatch misses. -/
inductive Ty : Type where
  | tInt : Ty
  | tStr : Ty
deriving DecidableEq

/-- A type-erased stored value: its runtime type tag plus its payload. -/
structure DynVal : Type where
  ty : Ty
  payload : Nat
deriving DecidableEq

mutual
/-- A trie node: the `children_` map plus the optional value.  A plain
`TrieNode` carries `none`; a `TrieNodeWithValue<T>` carries `some` value
(its `is_value_node_` flag is true exactly when the value is present). -/
inductive TrieNode : Type where
  | mk : ChildList → Option DynVal → TrieNode

/-- The `std::map<char, std::shared_ptr<const TrieNode>> children_` map as
an association list with unique keys (order is irrelevant to lookups). -/
inductive ChildList : Type where
  | nil : ChildList
  | cons : Char → TrieNode → ChildList → ChildList
end

def TrieNode.children : TrieNode → ChildList
  | .mk cs _ => cs

def TrieNode.value : TrieNode → Option DynVal
  | .mk _ v => v

/-- A default-constructed `TrieNode()`: no children, no value. -/
def emptyNode : TrieNode := TrieNode.mk ChildList.nil none

/-- `children_.find(c)`: look the character up in the children map. -/
def ChildList.findC : ChildList → Char → Option TrieNode
  | .nil, _ => none
  | .cons d m r, c => if d = c then some m else ChildList.findC r c

/-- `children_[c] = n`: map insert-or-assign for key `c`. -/
def ChildList.insertC : ChildList → Char → TrieNode → ChildList
  | .nil, c, n => .cons c n .nil
  | .cons d m r, c, n =>
      if d = c then .cons c n r else .cons d m (ChildList.insertC r c n)

/-- `children_.erase(c)`: drop the entry with key `c` (keys are unique in a
`std::map`, so dropping every match is the same operation). -/
def ChildList.eraseC : ChildList → Char → ChildList
  | .nil, _ => .nil
  | .cons d m r, c =>
      if d = c then ChildList.eraseC r c else .cons d m (ChildList.eraseC r c)

/-- `children_.empty()`. -/
def ChildList.isEmptyC : ChildList → Bool
  | .nil => true
  | .cons _ _ _ => false

mutual
/-- Structural equality of nodes.  It stands in for the shared_ptr root
identity test `root_ == other.root_`: the no-op branches of `Remove` return
`*this` (the identical root), and any branch that does real work strips an
existing value, so identity of roots and structural equality coincide on
the results `Remove` can produce. -/
def TrieNode.beqN : TrieNode → TrieNode → Bool
  | .mk cs v, .mk cs' v' => ChildList.beqC cs cs' && decide (v = v')

def ChildList.beqC : ChildList → ChildList → Bool
  | .nil, .nil => true
  | .cons c n r, .cons c' n' r' =>
      decide (c = c') && TrieNode.beqN n n' && ChildList.beqC r r'
  | _, _ => false
end

mutual
/-- The spec's pruning invariant on one node and everything below it: no
value-less node with no children occurs. -/
def TrieNode.wfN : TrieNode → Bool
  | .mk cs v => (!(ChildList.isEmptyC cs) || v.isSome) && ChildList.wfC cs

def ChildList.wfC : ChildList → Bool
  | .nil => true
  | .cons _ n r => TrieNode.wfN n && ChildList.wfC r
end

/-- A `Trie` handle: a root node, or `nullptr` for the empty trie. -/
structure Trie : Type where
  root : Option TrieNode

/-- A default-constructed empty `Trie` (`root_ = nullptr`). -/
def Trie.empty : Trie := ⟨none⟩

/-- The spec's pruning invariant over a whole trie. -/
def Trie.wfB : Trie → Bool
  | ⟨none⟩ => true
  | ⟨some r⟩ => TrieNode.wfN r

/-- Root-identity equality `operator==` of `Trie` (see `TrieNode.beqN`). -/
def Trie.beqT : Trie → Trie → Bool
  | ⟨none⟩, ⟨none⟩ => true
  | ⟨some r⟩, ⟨some r'⟩ => TrieNode.beqN r r'
  | _, _ => false

/-- The child-walking loop shared by `Trie::Get` and the traversals: follow
one child link per key character; `none` when some link is missing. -/
def TrieNode.walk : TrieNode → List Char → Option TrieNode
  | n, [] => some n
  | n, c :: cs =>
      match ChildList.findC n.children c with
      | none => none
      | some ch => TrieNode.walk ch cs

/-- The raw (untyped) lookup: the value stored at the end of the key path,
before the `dynamic_cast` type check. -/
def TrieNode.lookup : TrieNode → List Char → Option DynVal
  | n, [] => n.value
  | n, c :: cs =>
      match ChildList.findC n.children c with
      | none => none
      | some ch => TrieNode.lookup ch cs

/-- `Trie::Get<T>(key)`: walk the key from the root (missing root or missing
child link gives `nullptr`), then `dynamic_cast` the final node to
`TrieNodeWithValue<T>` — a node without a value or with a value of another
dynamic type gives `nullptr` as well. -/
def Trie.get (t : Trie) (ty : Ty) (k : List Char) : Option Nat :=
  match t.root with
  | none => none
  | some r =>
      match TrieNode.walk r k with
      | none => none
      | some n =>
          match n.value with
          | none => none
          | some dv => if dv.ty = ty then some dv.payload else none

/-- The walk from the root of a trie. -/
def Trie.walk (t : Trie) (k : List Char) : Option TrieNode :=
  match t.root with
  | none => none
  | some r => TrieNode.walk r k

/-- The untyped lookup from the root of a trie. -/
def Trie.lookupRaw (t : Trie) (k : List Char) : Option DynVal :=
  match t.root with
  | none => none
  | some r => TrieNode.lookup r k

/-- The path-cloning core of `Trie::Put` for a key that still has
characters left at this node.  At `[]` the source replaces the terminal
node with a `TrieNodeWithValue<T>(cur->children_, value)` — the clone's
children (= the old terminal's children) are kept, the value overwritten.
At `c :: cs` it clones the current node (keeping its children and value),
clones or freshly creates the child for `c`, and relinks. -/
def putAux (n : TrieNode) (k : List Char) (dv : DynVal) : TrieNode :=
  match k with
  | [] => TrieNode.mk n.children (some dv)
  | c :: cs =>
      let ch := match ChildList.findC n.children c with
                | some ch => ch
                | none => emptyNode
      TrieNode.mk (ChildList.insertC n.children c (putAux ch cs dv)) n.value

/-- `Trie::Put<T>(key, value)`.  For an empty key the source loop never
assigns `copy`, and `copy->children_[key[len-1]]` dereferences a null
pointer (and indexes the string_view out of bounds): undefined behaviour,
modelled as `none`.  For a non-empty key it clones the root (or starts a
fresh node for an empty trie) and rebuilds the key path. -/
def Trie.put (t : Trie) (k : List Char) (dv : DynVal) : Option Trie :=
  match k with
  | [] => none
  | c :: cs =>
      let r0 := match t.root with
                | some r => r
                | none => emptyNode
      some (Trie.mk (some (putAux r0 (c :: cs) dv)))

/-- Result of removing a key suffix below a node, mirroring what
`Trie::Remove` leaves at that position: `noop` when the walk fails or the
terminal has no value (the source returns `*this`), `keep n'` when the
node survives as `n'`, and `prune` when the node was erased from its
parent's children map by the clean-up pass. -/
inductive RmRes : Type where
  | noop : RmRes
  | keep : TrieNode → RmRes
  | prune : RmRes

/-- The downward walk plus bottom-up clean-up of `Trie::Remove`, one node
at a time.  At `[]` (the terminal): no value gives `noop`; a value with
children demotes the node to a plain `TrieNode(children)`; a value without
children erases the node (`prune`).  At `c :: cs`: a missing child gives
`noop`; otherwise the result below either keeps a rebuilt child, or — when
the child was pruned — the entry is erased and this node itself is pruned
exactly when it is now childless and value-less (the clean-up loop's
condition), stopping the propagation otherwise. -/
def removeDown : TrieNode → List Char → RmRes
  | n, [] =>
      match n.value with
      | none => .noop
      | some _ =>
          if ChildList.isEmptyC n.children then .prune
          else .keep (TrieNode.mk n.children none)
  | n, c :: cs =>
      match ChildList.findC n.children c with
      | none => .noop
      | some ch =>
          match removeDown ch cs with
          | .noop => .noop
          | .keep ch' => .keep (TrieNode.mk (ChildList.insertC n.children c ch') n.value)
          | .prune =>
              let l' := ChildList.eraseC n.children c
              if ChildList.isEmptyC l' && !n.value.isSome then .prune
              else .keep (TrieNode.mk l' n.value)

/-- `Trie::Remove(key)`.  Null root: return `*this`.  Empty key on a root
that holds a value: both branches call `path.back()` on an empty vector —
undefined behaviour, modelled as `none`; on a value-less root the key does
not resolve to a value node and `*this` is returned.  Non-empty key: run
the walk/clean-up; the clean-up loop's `i > 0` guard never erases the root
itself, so a fully pruned trie keeps a childless value-less root node. -/
def Trie.remove (t : Trie) (k : List Char) : Option Trie :=
  match t.root with
  | none => some t
  | some r =>
      match k with
      | [] =>
          match r.value with
          | some _ => none
          | none => some t
      | c :: cs =>
          match removeDown r (c :: cs) with
          | .noop => some t
          | .keep r' => some (Trie.mk (some r'))
          | .prune => some (Trie.mk (some (TrieNode.mk ChildList.nil none)))

/-- `SIZE_MAX`, the value of `size_t(-1)` used as the default-argument
sentinel of `TrieStore::Get`. -/
def SIZE_MAX : Nat := 18446744073709551615

/-- `size_t` subtraction of one, with wrap-around at zero as in
`snapshots_.size() - 1`. -/
def size_t_sub_one (n : Nat) : Nat := (n + SIZE_MAX) % (SIZE_MAX + 1)

/-- The store: the append-only `std::vector<Trie> snapshots_{1}` of
published versions (the locks serialize access in the source; the
sequential state they protect is this vector). -/
structure TrieStore : Type where
  snapshots : List Trie

/-- The initial store state: one default-constructed empty trie. -/
def initStore : TrieStore := ⟨[Trie.empty]⟩

/-- `snapshots_.back()`, the latest snapshot (the vector is never empty in
any reachable state). -/
def TrieStore.back (s : TrieStore) : Trie := s.snapshots.getLastD Trie.empty

/-- `TrieStore::get_version()`: `snapshots_.size() - 1` in `size_t`. -/
def TrieStore.get_version (s : TrieStore) : Nat := size_t_sub_one s.snapshots.length

/-- `TrieStore::Get<T>(key, version = -1)`: the sentinel `size_t(-1)` is
replaced by `snapshots_.size() - 1`; an out-of-range version gives
`nullopt`; otherwise `Trie::Get<T>` runs against the chosen snapshot. -/
def TrieStore.Get (s : TrieStore) (ty : Ty) (k : List Char) (version : Nat) : Option Nat :=
  let v := if version = SIZE_MAX then size_t_sub_one s.snapshots.length else version
  if s.snapshots.length ≤ v then none
  else Trie.get (s.snapshots.getD v Trie.empty) ty k

/-- `TrieStore::Put<T>(key, value)`: compute `back().Put(key, value)`,
append the result, return the new `snapshots_.size() - 1`.  A crashing
`Trie::Put` (empty key) propagates as `none`. -/
def TrieStore.Put (s : TrieStore) (k : List Char) (dv : DynVal) : Option (TrieStore × Nat) :=
  match Trie.put s.back k dv with
  | none => none
  | some t' => some (⟨s.snapshots ++ [t']⟩, size_t_sub_one (s.snapshots.length + 1))

/-- `TrieStore::Remove(key)`: compute `back().Remove(key)`; when the result
is root-identical to the input, return the current `size() - 1` without
appending; otherwise append and return the new `size() - 1`. -/
def TrieStore.Remove (s : TrieStore) (k : List Char) : Option (TrieStore × Nat) :=
  match Trie.remove s.back k with
  | none => none
  | some t' =>
      if Trie.beqT t' s.back then some (s, size_t_sub_one s.snapshots.length)
      else some (⟨s.snapshots ++ [t']⟩, size_t_sub_one (s.snapshots.length + 1))

/-- The tries constructible through the public `Trie` interface: the
default-constructed empty trie, and every non-crashing result of `Put` and
`Remove` (the constructor taking a root is private in the source). -/
inductive ReachableTrie : Trie → Prop where
  | base : ReachableTrie Trie.empty
  | put : ∀ t k v t', ReachableTrie t → Trie.put t k v = some t' → ReachableTrie t'
  | rem : ∀ t k t', ReachableTrie t → Trie.remove t k = some t' → ReachableTrie t'

/-- One completed writer operation on the store (the write lock serializes
these, so the sequential step relation captures every execution). -/
inductive StoreStep : TrieStore → TrieStore → Prop where
  | put : ∀ s k v s' i, TrieStore.Put s k v = some (s', i) → StoreStep s s'
  | rem : ∀ s k s' i, TrieStore.Remove s k = some (s', i) → StoreStep s s'

/-- Store states reachable from the initial state. -/
inductive StoreReach : TrieStore → Prop where
  | init : StoreReach initStore
  | step : ∀ s s', StoreReach s → StoreStep s s' → StoreReach s'

/-- Zero or more further writer operations. -/
inductive StoreEvolves : TrieStore → TrieStore → Prop where
  | refl : ∀ s, StoreEvolves s s
  | tail : ∀ s s' s'', StoreEvolves s s' → StoreStep s' s'' → StoreEvolves s s''

/-- An integer-tagged value, for concrete instances. -/
def dvInt (p : Nat) : DynVal := ⟨Ty.tInt, p⟩

/-- The trie holding the single entry "a" ↦ 1. -/
def tA : Trie := (Trie.put Trie.empty ['a'] (dvInt 1)).getD Trie.empty

/-- The trie holding "a" ↦ 1 and "ab" ↦ 2 (the node of "a" has a child). -/
def tW : Trie := (Trie.put tA ['a', 'b'] (dvInt 2)).getD Trie.empty

/-- The store after `Put("a", 7)` on the initial store. -/
def s1 : TrieStore :=
  match TrieStore.Put initStore ['a'] (dvInt 7) with
  | some p => p.1
  | none => initStore

/- Helper lemmas about the children map. -/

theorem TrieNode.children_mk (cs : ChildList) (v : Option DynVal) :
    (TrieNode.mk cs v).children = cs := rfl

theorem TrieNode.value_mk (cs : ChildList) (v : Option DynVal) :
    (TrieNode.mk cs v).value = v := rfl

theorem ChildList.findC_insertC_self :
    ∀ (l : ChildList) (c : Char) (n : TrieNode),
      ChildList.findC (ChildList.insertC l c n) c = some n
  | .nil, c, n => by simp [ChildList.insertC, ChildList.findC]
  | .cons d m r, c, n => by
      by_cases h : d = c
      · simp [ChildList.insertC, h, ChildList.findC]
      · simp [ChildList.insertC, h, ChildList.findC,
          ChildList.findC_insertC_self r c n]

theorem ChildList.findC_insertC_ne :
    ∀ (l : ChildList) (c d : Char) (n : TrieNode), c ≠ d →
      ChildList.findC (ChildList.insertC l c n) d = ChildList.findC l d
  | .nil, c, d, n, h => by simp [ChildList.insertC, ChildList.findC, h]
  | .cons e m r, c, d, n, h => by
      by_cases he : e = c
      · subst he
        simp [ChildList.insertC, ChildList.findC, h]
      · simp [ChildList.insertC, he, ChildList.findC,
          ChildList.findC_insertC_ne r c d n h]

theorem ChildList.findC_eraseC_self :
    ∀ (l : ChildList) (c : Char),
      ChildList.findC (ChildList.eraseC l c) c = none
  | .nil, c => by simp [ChildList.eraseC, ChildList.findC]
  | .cons d m r, c => by
      by_cases h : d = c
      · simp [ChildList.eraseC, h, ChildList.findC_eraseC_self r c]
      · simp [ChildList.eraseC, h, ChildList.findC,
          ChildList.findC_eraseC_self r c]

mutual
theorem TrieNode.beqN_refl : ∀ n : TrieNode, TrieNode.beqN n n = true
  | .mk cs v => by
      rw [TrieNode.beqN]
      rw [ChildList.beqC_refl cs]
      simp

theorem ChildList.beqC_refl : ∀ l : ChildList, ChildList.beqC l l = true
  | .nil => rfl
  | .cons c n r => by
      rw [ChildList.beqC]
      rw [TrieNode.beqN_refl n, ChildList.beqC_refl r]
      simp
end

theorem Trie.beqT_refl (t : Trie) : Trie.beqT t t = true := by
  obtain ⟨root⟩ := t
  cases root with
  | none => rfl
  | some r => simpa [Trie.beqT] using TrieNode.beqN_refl r

/- Helper lemmas about the traversals. -/

theorem TrieNode.lookup_eq_walk :
    ∀ (k : List Char) (n : TrieNode),
      TrieNode.lookup n k = (TrieNode.walk n k).bind TrieNode.value := by
  intro k
  induction k with
  | nil => intro n; rfl
  | cons c cs ih =>
      intro n
      cases h : ChildList.findC n.children c with
      | none => simp [TrieNode.lookup, TrieNode.walk, h]
      | some ch => simp [TrieNode.lookup, TrieNode.walk, h, ih]

theorem Trie.get_eq_lookupRaw (t : Trie) (ty : Ty) (k : List Char) :
    Trie.get t ty k =
      match Trie.lookupRaw t k with
      | none => none
      | some dv => if dv.ty = ty then some dv.payload else none := by
  obtain ⟨root⟩ := t
  cases root with
  | none => rfl
  | some r =>
      simp only [Trie.get, Trie.lookupRaw, TrieNode.lookup_eq_walk]
      cases hw : TrieNode.walk r k with
      | none => rfl
      | some n =>
          cases hv : n.value with
          | none => rfl
          | some dv => rfl

/- Helper lemmas about Put. -/

theorem putAux_lookup_self :
    ∀ (k : List Char) (n : TrieNode) (dv : DynVal),
      TrieNode.lookup (putAux n k dv) k = some dv := by
  intro k
  induction k with
  | nil => intro n dv; rfl
  | cons c cs ih =>
      intro n dv
      simp only [putAux, TrieNode.lookup, TrieNode.children_mk,
        ChildList.findC_insertC_self]
      exact ih _ _

theorem putAux_cons_value (n : TrieNode) (c : Char) (cs : List Char) (dv : DynVal) :
    (putAux n (c :: cs) dv).value = n.value := rfl

/- Helper lemmas about Remove. -/

theorem removeDown_noop_of_lookup_none :
    ∀ (k : List Char) (n : TrieNode), TrieNode.lookup n k = none →
      removeDown n k = .noop := by
  intro k
  induction k with
  | nil =>
      intro n h
      have hv : n.value = none := h
      simp [removeDown, hv]
  | cons c cs ih =>
      intro n h
      cases hf : ChildList.findC n.children c with
      | none => simp [removeDown, hf]
      | some ch =>
          have hch : TrieNode.lookup ch cs = none := by
            simpa [TrieNode.lookup, hf] using h
          simp [removeDown, hf, ih ch hch]

theorem removeDown_ne_noop_of_lookup_some :
    ∀ (k : List Char) (n : TrieNode) (dv : DynVal),
      TrieNode.lookup n k = some dv → removeDown n k ≠ .noop := by
  intro k
  induction k with
  | nil =>
      intro n dv h
      have hv : n.value = some dv := h
      cases hE : ChildList.isEmptyC n.children <;> simp [removeDown, hv, hE]
  | cons c cs ih =>
      intro n dv h
      cases hf : ChildList.findC n.children c with
      | none => rw [TrieNode.lookup, hf] at h; exact absurd h (by simp)
      | some ch =>
          have hch : TrieNode.lookup ch cs = some dv := by
            simpa [TrieNode.lookup, hf] using h
          cases hr : removeDown ch cs with
          | noop => exact absurd hr (ih ch dv hch)
          | keep ch' => simp [removeDown, hf, hr]
          | prune =>
              simp only [removeDown, hf, hr]
              split <;> simp

theorem removeDown_keep_lookup_none :
    ∀ (k : List Char) (n n' : TrieNode),
      removeDown n k = .keep n' → TrieNode.lookup n' k = none := by
  intro k
  induction k with
  | nil =>
      intro n n' h
      cases hv : n.value with
      | none => rw [removeDown, hv] at h; exact absurd h (by simp)
      | some dv =>
          cases hE : ChildList.isEmptyC n.children with
          | true => rw [removeDown, hv] at h; simp [hE] at h
          | false =>
              rw [removeDown, hv] at h
              simp only [hE, Bool.false_eq_true, if_false, RmRes.keep.injEq] at h
              subst h
              rfl
  | cons c cs ih =>
      intro n n' h
      cases hf : ChildList.findC n.children c with
      | none =>
          simp only [removeDown, hf] at h
          exact RmRes.noConfusion h
      | some ch =>
          cases hr : removeDown ch cs with
          | noop =>
              simp only [removeDown, hf, hr] at h
              exact RmRes.noConfusion h
          | keep ch' =>
              simp only [removeDown, hf, hr, RmRes.keep.injEq] at h
              subst h
              simp [TrieNode.lookup, TrieNode.children_mk,
                ChildList.findC_insertC_self, ih ch ch' hr]
          | prune =>
              simp only [removeDown, hf, hr] at h
              split at h
              · exact absurd h (by simp)
              · simp only [RmRes.keep.injEq] at h
                subst h
                simp [TrieNode.lookup, TrieNode.children_mk,
                  ChildList.findC_eraseC_self]

theorem removeDown_cons_keep_value (n : TrieNode) (c : Char) (cs : List Char)
    (n' : TrieNode) (h : removeDown n (c :: cs) = .keep n') : n'.value = n.value := by
  cases hf : ChildList.findC n.children c with
  | none =>
      simp only [removeDown, hf] at h
      exact RmRes.noConfusion h
  | some ch =>
      cases hr : removeDown ch cs with
      | noop =>
          simp only [removeDown, hf, hr] at h
          exact RmRes.noConfusion h
      | keep ch' =>
          simp only [removeDown, hf, hr, RmRes.keep.injEq] at h
          subst h
          rfl
      | prune =>
          simp only [removeDown, hf, hr] at h
          split at h
          · exact absurd h (by simp)
          · simp only [RmRes.keep.injEq] at h
            subst h
            rfl

theorem removeDown_branch_keep :
    ∀ (k : List Char) (n m : TrieNode) (dv : DynVal),
      TrieNode.walk n k = some m → m.value = some dv →
      ChildList.isEmptyC m.children = false →
      ∃ n', removeDown n k = .keep n' ∧
        ∀ k', k' ≠ k → TrieNode.lookup n' k' = TrieNode.lookup n k' := by
  intro k
  induction k with
  | nil =>
      intro n m dv hw hv hc
      obtain rfl : n = m := by simpa [TrieNode.walk] using hw
      refine ⟨TrieNode.mk n.children none, ?_, ?_⟩
      · simp [removeDown, hv, hc]
      · intro k' hk'
        cases k' with
        | nil => exact absurd rfl hk'
        | cons c cs => rfl
  | cons c cs ih =>
      intro n m dv hw hv hc
      cases hf : ChildList.findC n.children c with
      | none =>
          rw [TrieNode.walk] at hw
          rw [hf] at hw
          exact Option.noConfusion hw
      | some ch =>
          have hw' : TrieNode.walk ch cs = some m := by
            rw [TrieNode.walk] at hw
            rw [hf] at hw
            exact hw
          obtain ⟨ch', hr, hpres⟩ := ih ch m dv hw' hv hc
          refine ⟨TrieNode.mk (ChildList.insertC n.children c ch') n.value, ?_, ?_⟩
          · simp [removeDown, hf, hr]
          · intro k' hk'
            cases k' with
            | nil => rfl
            | cons d ds =>
                by_cases hd : d = c
                · subst hd
                  have hds : ds ≠ cs := by
                    intro hcontra
                    exact hk' (by rw [hcontra])
                  simp only [TrieNode.lookup, TrieNode.children_mk,
                    ChildList.findC_insertC_self, hf]
                  exact hpres ds hds
                · simp only [TrieNode.lookup, TrieNode.children_mk,
                    ChildList.findC_insertC_ne n.children c d ch'
                      (fun hcontra => hd hcontra.symm)]

theorem remove_of_lookupRaw_none (t : Trie) (k : List Char)
    (h : Trie.lookupRaw t k = none) : Trie.remove t k = some t := by
  cases ht : t.root with
  | none => simp [Trie.remove, ht]
  | some r =>
      cases k with
      | nil =>
          have hv : r.value = none := by
            rw [Trie.lookupRaw, ht] at h
            exact h
          simp [Trie.remove, ht, hv]
      | cons c cs =>
          have hlk : TrieNode.lookup r (c :: cs) = none := by
            rw [Trie.lookupRaw, ht] at h
            exact h
          simp [Trie.remove, ht, removeDown_noop_of_lookup_none (c :: cs) r hlk]

theorem reachableRootValueNone (t : Trie) (hr : ReachableTrie t) :
    Trie.lookupRaw t [] = none := by
  induction hr with
  | base => rfl
  | put t k v t' _ hput ih =>
      cases k with
      | nil => exact Option.noConfusion hput
      | cons c cs =>
          simp only [Trie.put, Option.some.injEq] at hput
          subst hput
          show (putAux _ (c :: cs) v).value = none
          rw [putAux_cons_value]
          cases ht : t.root with
          | none => rfl
          | some r =>
              rw [Trie.lookupRaw, ht] at ih
              exact ih
  | rem t k t' _ hrm ih =>
      cases ht : t.root with
      | none =>
          rw [Trie.remove, ht] at hrm
          injection hrm with h1
          subst h1
          exact ih
      | some r =>
          cases k with
          | nil =>
              cases hv : r.value with
              | some dv =>
                  simp only [Trie.remove, ht, hv] at hrm
                  exact Option.noConfusion hrm
              | none =>
                  simp only [Trie.remove, ht, hv, Option.some.injEq] at hrm
                  subst hrm
                  exact ih
          | cons c cs =>
              cases hd : removeDown r (c :: cs) with
              | noop =>
                  simp only [Trie.remove, ht, hd, Option.some.injEq] at hrm
                  subst hrm
                  exact ih
              | keep r' =>
                  simp only [Trie.remove, ht, hd, Option.some.injEq] at hrm
                  subst hrm
                  show r'.value = none
                  rw [removeDown_cons_keep_value r c cs r' hd]
                  rw [Trie.lookupRaw, ht] at ih
                  exact ih
              | prune =>
                  simp only [Trie.remove, ht, hd, Option.some.injEq] at hrm
                  subst hrm
                  rfl

/- Helper lemmas about the store. -/

theorem getD_append_lt {α : Type} (l l' : List α) (n : Nat) (d : α)
    (h : n < l.length) : (l ++ l').getD n d = l.getD n d := by
  induction l generalizing n with
  | nil => simp at h
  | cons a r ih =>
      cases n with
      | zero => rfl
      | succ m =>
          have hm : m < r.length := by simpa using h
          simpa [List.getD_cons_succ] using ih m hm

theorem headQ_append {α : Type} (l l' : List α) (h : l ≠ []) :
    (l ++ l')[0]? = l[0]? := by
  cases l with
  | nil => exact absurd rfl h
  | cons a r => simp

theorem storeStep_append (s s' : TrieStore) (h : StoreStep s s') :
    ∃ ts, s'.snapshots = s.snapshots ++ ts := by
  cases h with
  | put k v s2 i hp =>
      cases hput : Trie.put s.back k v with
      | none =>
          simp only [TrieStore.Put, hput] at hp
          exact Option.noConfusion hp
      | some t' =>
          simp only [TrieStore.Put, hput, Option.some.injEq, Prod.mk.injEq] at hp
          exact ⟨[t'], by rw [← hp.1]⟩
  | rem k s2 i hp =>
      cases hrm : Trie.remove s.back k with
      | none =>
          simp only [TrieStore.Remove, hrm] at hp
          exact Option.noConfusion hp
      | some t' =>
          simp only [TrieStore.Remove, hrm] at hp
          by_cases hb : Trie.beqT t' s.back = true
          · rw [if_pos hb] at hp
            simp only [Option.some.injEq, Prod.mk.injEq] at hp
            exact ⟨[], by rw [← hp.1, List.append_nil]⟩
          · rw [if_neg hb] at hp
            simp only [Option.some.injEq, Prod.mk.injEq] at hp
            exact ⟨[t'], by rw [← hp.1]⟩

theorem storeEvolves_append (s s' : TrieStore) (h : StoreEvolves s s') :
    ∃ ts, s'.snapshots = s.snapshots ++ ts := by
  induction h with
  | refl => exact ⟨[], by rw [List.append_nil]⟩
  | tail smid s2 hev hstep ih =>
      obtain ⟨ts1, h1⟩ := ih
      obtain ⟨ts2, h2⟩ := storeStep_append smid s2 hstep
      exact ⟨ts1 ++ ts2, by rw [h2, h1, List.append_assoc]⟩

theorem storeReach_head (s : TrieStore) (h : StoreReach s) :
    s.snapshots ≠ [] ∧ s.snapshots[0]? = some Trie.empty := by
  induction h with
  | init => exact ⟨by simp [initStore], rfl⟩
  | step s s' _ hstep ih =>
      obtain ⟨ts, happ⟩ := storeStep_append s s' hstep
      obtain ⟨hne, hh⟩ := ih
      constructor
      · rw [happ]
        intro hc
        rw [List.append_eq_nil] at hc
        exact hne hc.1
      · rw [happ, headQ_append s.snapshots ts hne]
        exact hh

theorem storeGet_stable (s s' : TrieStore) (ts : List Trie)
    (happ : s'.snapshots = s.snapshots ++ ts) (ty : Ty) (k : List Char)
    (v : Nat) (hv : v < s.snapshots.length) (hs : v ≠ SIZE_MAX) :
    TrieStore.Get s' ty k v = TrieStore.Get s ty k v := by
  have hv' : v < s'.snapshots.length := by
    rw [happ, List.length_append]
    omega
  simp only [TrieStore.Get, if_neg hs, if_neg (not_le.mpr hv'), if_neg (not_le.mpr hv)]
  rw [happ, getD_append_lt s.snapshots ts v Trie.empty hv]

theorem size_t_sub_one_eq (n : Nat) (h1 : 1 ≤ n) (h2 : n ≤ SIZE_MAX) :
    size_t_sub_one n = n - 1 := by
  rw [size_t_sub_one]
  have he : n + SIZE_MAX = (n - 1) + 1 * (SIZE_MAX + 1) := by omega
  rw [he, Nat.add_mul_mod_self_right]
  exact Nat.mod_eq_of_lt (by omega)

theorem put_lookupRaw_self (t : Trie) (c : Char) (cs : List Char) (dv : DynVal) :
    (Trie.put t (c :: cs) dv).bind (fun t' => Trie.lookupRaw t' (c :: cs)) = some dv := by
  simp [Trie.put, Trie.lookupRaw, putAux_lookup_self]

theorem reach_tA : ReachableTrie tA :=
  ReachableTrie.put Trie.empty ['a'] (dvInt 1) tA ReachableTrie.base rfl

theorem reach_tW : ReachableTrie tW :=
  ReachableTrie.put tA ['a', 'b'] (dvInt 2) tW reach_tA rfl

/-- Claim C1 (corrected), counterexample: the round trip fails for the empty
key, because `Trie::Put` with an empty key dereferences the null `copy`
pointer (undefined behaviour, modelled as `none`), so `Put("").Get("")`
cannot return the stored value. -/
theorem put_get_roundtrip_fails_on_empty_key :
    (Trie.put Trie.empty [] (dvInt 7)).bind
      (fun t' => Trie.get t' Ty.tInt []) ≠ some 7 := by
  decide

/-- Claim C1 (corrected, amended): for every trie `t`, every NON-EMPTY key
`k` and every value of any type tag, `t.Put(k, v).Get<T>(k)` returns `v`. -/
theorem put_get_roundtrip (t : Trie) (k : List Char) (ty : Ty) (p : Nat)
    (h : k ≠ []) :
    (Trie.put t k (DynVal.mk ty p)).bind (fun t' => Trie.get t' ty k) = some p := by
  cases k with
  | nil => exact absurd rfl h
  | cons c cs =>
      have hb := put_lookupRaw_self t c cs (DynVal.mk ty p)
      cases hput : Trie.put t (c :: cs) (DynVal.mk ty p) with
      | none =>
          rw [hput] at hb
          simp at hb
      | some t' =>
          rw [hput] at hb
          have hb' : Trie.lookupRaw t' (c :: cs) = some (DynVal.mk ty p) := by
            simpa using hb
          simp [Trie.get_eq_lookupRaw, hb']

/-- Claim C1 witness: the round trip at a concrete non-empty key. -/
theorem put_get_roundtrip_instance :
    (['a'] ≠ ([] : List Char)) ∧
    (Trie.put Trie.empty ['a'] (DynVal.mk Ty.tInt 3)).bind
      (fun t' => Trie.get t' Ty.tInt ['a']) = some 3 :=
  ⟨by decide, put_get_roundtrip Trie.empty ['a'] Ty.tInt 3 (by decide)⟩

/-- Claim C2 (confirmed): on any trie constructible through the public
interface, removing a key that is present as a value makes every typed
`Get` of that key miss in the result; and when the key's terminal node also
has children (the demotion branch), every other key keeps its lookup
result.  Reachability matters only to rule out a value on the root (the
`Trie` root constructor is private and `Put("")` never completes), which
is what makes `Remove` of a present key well defined. -/
theorem remove_present_key_correct (t : Trie) (k : List Char) (dv : DynVal)
    (hr : ReachableTrie t) (hp : Trie.lookupRaw t k = some dv) :
    ∃ t', Trie.remove t k = some t' ∧
      (∀ ty, Trie.get t' ty k = none) ∧
      (∀ m, Trie.walk t k = some m → ChildList.isEmptyC m.children = false →
        ∀ k' ty, k' ≠ k → Trie.get t' ty k' = Trie.get t ty k') := by
  cases ht : t.root with
  | none =>
      rw [Trie.lookupRaw, ht] at hp
      exact Option.noConfusion hp
  | some r =>
      have hk : k ≠ [] := by
        intro he
        subst he
        have h0 := reachableRootValueNone t hr
        rw [hp] at h0
        exact Option.noConfusion h0
      cases k with
      | nil => exact absurd rfl hk
      | cons c cs =>
          have hlk : TrieNode.lookup r (c :: cs) = some dv := by
            rw [Trie.lookupRaw, ht] at hp
            exact hp
          cases hrm : removeDown r (c :: cs) with
          | noop =>
              exact absurd hrm (removeDown_ne_noop_of_lookup_some (c :: cs) r dv hlk)
          | keep r' =>
              refine ⟨Trie.mk (some r'), ?_, ?_, ?_⟩
              · simp [Trie.remove, ht, hrm]
              · intro ty
                rw [Trie.get_eq_lookupRaw]
                have h0 : TrieNode.lookup r' (c :: cs) = none :=
                  removeDown_keep_lookup_none (c :: cs) r r' hrm
                simp [Trie.lookupRaw, h0]
              · intro m hw hc k' ty hk'
                have hwr : TrieNode.walk r (c :: cs) = some m := by
                  rw [Trie.walk, ht] at hw
                  exact hw
                have hmv : m.value = some dv := by
                  have he := TrieNode.lookup_eq_walk (c :: cs) r
                  rw [hlk, hwr] at he
                  simpa using he.symm
                obtain ⟨n', hkeep, hpres⟩ :=
                  removeDown_branch_keep (c :: cs) r m dv hwr hmv hc
                rw [hrm] at hkeep
                injection hkeep with hn
                subst hn
                rw [Trie.get_eq_lookupRaw, Trie.get_eq_lookupRaw]
                have hlr : Trie.lookupRaw (Trie.mk (some r')) k' = Trie.lookupRaw t k' := by
                  simp only [Trie.lookupRaw, ht]
                  exact hpres k' hk'
                rw [hlr]
          | prune =>
              refine ⟨Trie.mk (some (TrieNode.mk ChildList.nil none)), ?_, ?_, ?_⟩
              · simp [Trie.remove, ht, hrm]
              · intro ty
                rfl
              · intro m hw hc k' ty hk'
                have hwr : TrieNode.walk r (c :: cs) = some m := by
                  rw [Trie.walk, ht] at hw
                  exact hw
                have hmv : m.value = some dv := by
                  have he := TrieNode.lookup_eq_walk (c :: cs) r
                  rw [hlk, hwr] at he
                  simpa using he.symm
                obtain ⟨n', hkeep, _⟩ :=
                  removeDown_branch_keep (c :: cs) r m dv hwr hmv hc
                rw [hrm] at hkeep
                exact RmRes.noConfusion hkeep

/-- Claim C2 witness: the trie holding "a" ↦ 1 and "ab" ↦ 2, with the key
"a" removed — the demotion branch, since "a" has the child "b". -/
theorem remove_present_key_correct_instance :
    Trie.lookupRaw tW ['a'] = some (dvInt 1) ∧
    (∃ t', Trie.remove tW ['a'] = some t' ∧
      (∀ ty, Trie.get t' ty ['a'] = none) ∧
      (∀ m, Trie.walk tW ['a'] = some m → ChildList.isEmptyC m.children = false →
        ∀ k' ty, k' ≠ ['a'] → Trie.get t' ty k' = Trie.get tW ty k')) :=
  ⟨by decide, remove_present_key_correct tW ['a'] (dvInt 1) reach_tW (by decide)⟩

/-- Claim C3 (code_bug): `Trie::Put` with the empty key is not total — the
source leaves `copy == nullptr` and dereferences it (undefined behaviour,
`none` in the model), on the empty trie as well as on a populated one, and
`TrieStore::Put` of the empty key inherits the crash instead of appending a
version. -/
theorem put_empty_key_crashes :
    Trie.put Trie.empty [] (dvInt 0) = none ∧
    Trie.put tW [] (dvInt 0) = none ∧
    TrieStore.Put initStore [] (dvInt 0) = none :=
  ⟨rfl, rfl, rfl⟩

/-- Claim C4 (code_bug): the pruning invariant is not preserved by
`Trie::Remove` — removing the single length-1 key of a trie that satisfies
the invariant leaves a published trie whose root is a value-less node with
no children (the clean-up loop's `i > 0` guard never clears the root). -/
theorem remove_singleton_key_leaves_empty_root :
    Trie.wfB tA = true ∧
    Trie.remove tA ['a'] = some (Trie.mk (some (TrieNode.mk ChildList.nil none))) ∧
    Trie.wfB (Trie.mk (some (TrieNode.mk ChildList.nil none))) = false :=
  ⟨rfl, rfl, rfl⟩

/-- Claim C5 (confirmed): removing a key that is absent or resolves to a
node without a value returns the receiver itself (the source returns
`*this`, root-reference identity), and `TrieStore::Remove` of such a key
returns the current latest version index without appending a version. -/
theorem remove_missing_key_noop :
    (∀ (t : Trie) (k : List Char), Trie.lookupRaw t k = none →
      Trie.remove t k = some t) ∧
    (∀ (s : TrieStore) (k : List Char), Trie.lookupRaw s.back k = none →
      TrieStore.Remove s k = some (s, TrieStore.get_version s)) := by
  constructor
  · exact remove_of_lookupRaw_none
  · intro s k h
    have h1 := remove_of_lookupRaw_none s.back k h
    simp [TrieStore.Remove, h1, Trie.beqT_refl, TrieStore.get_version]

/-- Claim C5 witness: removing the absent key "b" from the trie holding
only "a", and from the store whose latest version holds only "a". -/
theorem remove_missing_key_noop_instance :
    Trie.remove tA ['b'] = some tA ∧
    TrieStore.Remove s1 ['b'] = some (s1, TrieStore.get_version s1) :=
  ⟨remove_missing_key_noop.1 tA ['b'] (by decide),
   remove_missing_key_noop.2 s1 ['b'] (by decide)⟩

/-- Claim C6 (confirmed): `Trie::Get<T>` returns absent exactly when the
walk loses a child link (or the trie is empty), or the terminal node has no
value, or the stored value's dynamic type differs from `T`; otherwise it
returns the stored payload of type `T`.  The function is total — a type
mismatch is a defined miss, not an error. -/
theorem get_miss_characterization (t : Trie) (ty : Ty) (k : List Char) :
    (Trie.get t ty k = none ↔
      Trie.walk t k = none ∨
      (∃ m, Trie.walk t k = some m ∧ m.value = none) ∨
      (∃ m dv, Trie.walk t k = some m ∧ m.value = some dv ∧ dv.ty ≠ ty)) ∧
    (∀ p, Trie.get t ty k = some p ↔
      ∃ m dv, Trie.walk t k = some m ∧ m.value = some dv ∧ dv.ty = ty ∧
        dv.payload = p) := by
  cases ht : t.root with
  | none => simp [Trie.get, Trie.walk, ht]
  | some r =>
      cases hw : TrieNode.walk r k with
      | none => simp [Trie.get, Trie.walk, ht, hw]
      | some n =>
          cases hv : n.value with
          | none => simp [Trie.get, Trie.walk, ht, hw, hv]
          | some dv =>
              by_cases htag : dv.ty = ty
              · simp [Trie.get, Trie.walk, ht, hw, hv, htag]
              · simp [Trie.get, Trie.walk, ht, hw, hv, htag]

/-- Claim C7 (confirmed): from any reachable store state, version 0 is the
initial empty trie and the sequence exists (so `get_version` cannot fail);
any sequence of later writer operations only appends to the sequence, and
`Get` against any fixed published version is unchanged by them.  The
capacity hypothesis reflects that a `std::vector` indexed by `size_t`
cannot hold more than `SIZE_MAX` snapshots. -/
theorem store_version_sequence_invariant (s s' : TrieStore)
    (hr : StoreReach s) (he : StoreEvolves s s')
    (hcap : s.snapshots.length ≤ SIZE_MAX) :
    s.snapshots ≠ [] ∧ s.snapshots[0]? = some Trie.empty ∧
    (∃ ts, s'.snapshots = s.snapshots ++ ts) ∧
    (∀ (ty : Ty) (k : List Char) (v : Nat), v < s.snapshots.length →
      TrieStore.Get s' ty k v = TrieStore.Get s ty k v) := by
  obtain ⟨hne, hh⟩ := storeReach_head s hr
  obtain ⟨ts, happ⟩ := storeEvolves_append s s' he
  refine ⟨hne, hh, ⟨ts, happ⟩, ?_⟩
  intro ty k v hv
  have hs : v ≠ SIZE_MAX := by omega
  exact storeGet_stable s s' ts happ ty k v hv hs

/-- Claim C7 witness: the initial store, evolved by one `Put("a", 7)`. -/
theorem store_version_sequence_invariant_instance :
    initStore.snapshots ≠ [] ∧ initStore.snapshots[0]? = some Trie.empty ∧
    (∃ ts, s1.snapshots = initStore.snapshots ++ ts) ∧
    (∀ (ty : Ty) (k : List Char) (v : Nat), v < initStore.snapshots.length →
      TrieStore.Get s1 ty k v = TrieStore.Get initStore ty k v) :=
  store_version_sequence_invariant initStore s1 StoreReach.init
    (StoreEvolves.tail initStore initStore s1 (StoreEvolves.refl initStore)
      (StoreStep.put initStore ['a'] (dvInt 7) s1 1 rfl))
    (by decide)

/-- Claim C8 (corrected), counterexample: `SIZE_MAX` is a version number
greater than or equal to the current sequence length, yet `Store.Get` at
that version returns the latest snapshot's value instead of absent,
because the source first replaces the `size_t(-1)` sentinel by the latest
index. -/
theorem storeGet_sentinel_not_absent :
    s1.snapshots.length ≤ SIZE_MAX ∧
    TrieStore.Get s1 Ty.tInt ['a'] SIZE_MAX = some 7 :=
  ⟨by decide, by decide⟩

/-- Claim C8 (corrected, amended): every version number at or beyond the
current sequence length OTHER THAN the `SIZE_MAX` sentinel yields absent;
and a `SIZE_MAX` version argument (in particular the omitted default)
resolves to the latest index `size() - 1` at the moment of the call. -/
theorem storeGet_out_of_range_and_default :
    (∀ (s : TrieStore) (ty : Ty) (k : List Char) (v : Nat),
      s.snapshots.length ≤ v → v ≠ SIZE_MAX → TrieStore.Get s ty k v = none) ∧
    (∀ (s : TrieStore) (ty : Ty) (k : List Char),
      TrieStore.Get s ty k SIZE_MAX =
        TrieStore.Get s ty k (size_t_sub_one s.snapshots.length)) := by
  constructor
  · intro s ty k v hge hne
    simp only [TrieStore.Get]
    rw [if_neg hne, if_pos hge]
  · intro s ty k
    simp only [TrieStore.Get, if_true, ite_self]

/-- Claim C8 witness: a concrete out-of-range version misses, and the
sentinel resolves to the latest index. -/
theorem storeGet_out_of_range_and_default_instance :
    TrieStore.Get s1 Ty.tInt ['a'] 5 = none ∧
    TrieStore.Get s1 Ty.tInt ['a'] SIZE_MAX =
      TrieStore.Get s1 Ty.tInt ['a'] (size_t_sub_one s1.snapshots.length) :=
  ⟨storeGet_out_of_range_and_default.1 s1 Ty.tInt ['a'] 5 (by decide) (by decide),
   storeGet_out_of_range_and_default.2 s1 Ty.tInt ['a']⟩

/-- Claim C10 (confirmed): calling `Store.Get` with the explicit version
argument `SIZE_MAX` (the value of the default-argument sentinel
`size_t(-1)`) is treated as a request for the latest version: it returns
the latest snapshot's lookup result rather than the absent answer an
out-of-range version would get. -/
theorem storeGet_sentinel_is_latest (s : TrieStore) (ty : Ty) (k : List Char)
    (h1 : 1 ≤ s.snapshots.length) (h2 : s.snapshots.length ≤ SIZE_MAX) :
    TrieStore.Get s ty k SIZE_MAX =
      Trie.get (s.snapshots.getD (s.snapshots.length - 1) Trie.empty) ty k := by
  have hsub : size_t_sub_one s.snapshots.length = s.snapshots.length - 1 :=
    size_t_sub_one_eq s.snapshots.length h1 h2
  simp only [TrieStore.Get, if_true]
  rw [hsub, if_neg (by omega)]

/-- Claim C10 witness: the store holding "a" ↦ 7 at its latest version. -/
theorem storeGet_sentinel_is_latest_instance :
    TrieStore.Get s1 Ty.tInt ['a'] SIZE_MAX =
      Trie.get (s1.snapshots.getD (s1.snapshots.length - 1) Trie.empty)
        Ty.tInt ['a'] :=
  storeGet_sentinel_is_latest s1 Ty.tInt ['a'] (by decide) (by decide)
